import Mathlib

/-!
Verification of the json-version-control repository.

The repository persists one JSON document as a chain of forward diffs.
It ships two near-duplicate variants of the same class: a synchronous one
(`VersionControl`, file `src/unnamed/part_000`) and an asynchronous one
(`VersionControlAsync`, file `src/versionControlAsync.js`).  Both are
embedded below over an explicit store of the three persistence locations
(document snapshot file, head file, history directory).  The external
jsondiffpatch codec is modelled by a `DiffCodec` structure together with
the contract the spec states for it; a concrete lawful instance
(`replaceCodec`, mirroring jsondiffpatch whole-value replacement deltas
`[oldValue, newValue]`) is used for witnesses.

JavaScript runtime behaviour relevant to the embedded code is modelled
explicitly: JS falsiness (`jsFalsy`), `String(...)` coercion
(`jsToString`), property access throwing a TypeError on `null`
(`jsGetProp`), and `JSON.parse`/read failures yielding `null`
(`readFileData`).  Synchronous operations that can throw return
`Except Unit`; asynchronous operations whose bodies are wrapped in
try/catch are total.
-/

/- JSON values.  Numbers are modelled as integers: no claim depends on
float semantics, and all numeric values appearing in the program
(timestamps) are integers. -/
mutual
inductive JSON where
  | null
  | bool (b : Bool)
  | num (n : Int)
  | str (s : String)
  | arr (elems : JList)
  | obj (fields : JFields)
deriving DecidableEq
inductive JList where
  | nil
  | cons (hd : JSON) (tl : JList)
deriving DecidableEq
inductive JFields where
  | nil
  | cons (key : String) (val : JSON) (tl : JFields)
deriving DecidableEq
end

/-- JavaScript falsiness of a JSON value: `null`, `false`, `0` and the
empty string are falsy; every object or array is truthy. -/
def jsFalsy : JSON → Bool
  | .null => true
  | .bool b => !b
  | .num n => n == 0
  | .str s => s == ""
  | _ => false

/- JavaScript coercion `String(...)` of a JSON value, as used by
`getCurrentVersion` (`String(version)`).  Arrays join their elements with
commas, `null` elements rendering as the empty string. -/
mutual
def jsToString : JSON → String
  | .null => "null"
  | .bool true => "true"
  | .bool false => "false"
  | .num n => toString n
  | .str s => s
  | .arr xs => String.intercalate "," (jsArrStrings xs)
  | .obj _ => "[object Object]"
def jsArrStrings : JList → List String
  | .nil => []
  | .cons .null tl => "" :: jsArrStrings tl
  | .cons v tl => jsToString v :: jsArrStrings tl
end

/-- Lookup of a key in a JSON object's field list. -/
def JFields.lookup : JFields → String → Option JSON
  | .nil, _ => none
  | .cons k v tl, key => if k = key then some v else tl.lookup key

/-- JavaScript property access `base[key]`.  Accessing a property of
`null` throws a TypeError (modelled as `Except.error`); on any other
non-object value it yields `undefined` (modelled as `none`). -/
def jsGetProp : JSON → String → Except Unit (Option JSON)
  | .null, _ => .error ()
  | .obj fs, key => .ok (fs.lookup key)
  | _, _ => .ok none

/-- File names are modelled as lists of characters. -/
abbrev Name := List Char

/-- Decidable equality for `Except` results, used to compare the
outcomes of throwing operations. -/
instance {ε α : Type} [DecidableEq ε] [DecidableEq α] :
    DecidableEq (Except ε α) := fun a b =>
  match a, b with
  | .ok x, .ok y =>
      if h : x = y then .isTrue (by rw [h]) else .isFalse (by simp [h])
  | .error x, .error y =>
      if h : x = y then .isTrue (by rw [h]) else .isFalse (by simp [h])
  | .ok _, .error _ => .isFalse (by simp)
  | .error _, .ok _ => .isFalse (by simp)

/-- Contents of one persisted file location: absent, unparsable, or a
parsed JSON value. -/
inductive FileData where
  | missing
  | malformed
  | jsonData (v : JSON)
deriving DecidableEq

/-- Result of `readJsonFile` on a file: parse/read failures (missing or
malformed file) are caught and returned as JS `null`, which is the same
value as a parsed literal `null`. -/
def readFileData : FileData → JSON
  | .missing => .null
  | .malformed => .null
  | .jsonData v => v

/-- State of the persistence store: the document snapshot file, the head
file, and the history directory (`none` when the directory itself is
missing; otherwise the list of contained files with their JSON
contents in listing order). -/
structure Store where
  source : FileData
  headF : FileData
  histDir : Option (List (Name × JSON))
deriving DecidableEq

/-- Lookup of a file by name inside the history directory listing. -/
def lookupFile : List (Name × JSON) → Name → Option JSON
  | [], _ => none
  | (n, v) :: rest, name => if n = name then some v else lookupFile rest name

/-- Result of `readJsonFile` on a history-directory file: a missing file
reads as JS `null`. -/
def readHistFile (files : List (Name × JSON)) (name : Name) : JSON :=
  (lookupFile files name).getD .null

/-- Writing a file into a directory: overwrite in place when the name
exists, otherwise append a new entry. -/
def upsert (name : Name) (v : JSON) : List (Name × JSON) → List (Name × JSON)
  | [] => [(name, v)]
  | (n, w) :: rest =>
      if n = name then (n, v) :: rest else (n, w) :: upsert name v rest

/-- One persistence-store write performed by a mutating operation:
a history (diff) file, the head file, or the snapshot file. -/
inductive WriteEvent where
  | wHist (name : Name) (v : JSON)
  | wHead (v : JSON)
  | wSource (v : JSON)
deriving DecidableEq

/-- Effect of one write on the store. -/
def applyEvent (s : Store) : WriteEvent → Store
  | .wHist name v =>
      { s with histDir := s.histDir.map (upsert name v) }
  | .wHead v => { s with headF := .jsonData v }
  | .wSource v => { s with source := .jsonData v }

/-- The fixed `.diff` extension of history file names. -/
def diffExt : Name := ['.', 'd', 'i', 'f', 'f']

/-- Match of one directory entry name against the
`^pre(\d+)\.diff$` pattern used by `getHistoryVersions`, returning the
extracted digit run. -/
def matchDiffName (pre name : Name) : Option Name :=
  if name.take pre.length = pre ∧
      (name.drop pre.length).drop ((name.drop pre.length).length - 5) = diffExt ∧
      (name.drop pre.length).take ((name.drop pre.length).length - 5) ≠ [] ∧
      ((name.drop pre.length).take
        ((name.drop pre.length).length - 5)).all Char.isDigit
  then some ((name.drop pre.length).take ((name.drop pre.length).length - 5))
  else none

/-- Numeric value of a version identifier (a digit string), as produced
by JS numeric coercion in the sort comparator `(a, b) => a - b`. -/
def digitsVal (ds : Name) : Nat :=
  ds.foldl (fun n c => n * 10 + (c.toNat - 48)) 0

/-- Fuelled decimal rendering; the fuel argument only forces structural
termination and any fuel exceeding the number suffices. -/
def natDigitsAux : Nat → Nat → Name
  | 0, _ => []
  | fuel + 1, n =>
      if n < 10 then [Nat.digitChar n]
      else natDigitsAux fuel (n / 10) ++ [Nat.digitChar (n % 10)]

/-- Decimal rendering of a natural number, as produced by JS
`String(timestamp)` interpolation of the minted identifier. -/
def natDigits (n : Nat) : Name := natDigitsAux (n + 1) n

/-- File name of the diff record for one version identifier:
`{historyDirectory}/{diffFilePrefix}{identifier}.diff`. -/
def versionFileName (pre : Name) (ver : Name) : Name :=
  pre ++ ver ++ diffExt

/-- Ordered version list computed from a directory listing: names
matching the pattern, extracted, sorted ascending by numeric value
(`versions.sort((a, b) => a - b)`). -/
def listVersions (pre : Name) (files : List (Name × JSON)) : List Name :=
  ((files.map Prod.fst).filterMap (matchDiffName pre)).insertionSort
    (fun a b => digitsVal a ≤ digitsVal b)

/-- Head JSON object `{ version: <string> }` written by the save and
apply operations. -/
def headObj (ver : Name) : JSON :=
  .obj (.cons "version" (.str (String.mk ver)) .nil)

/-- The empty JSON object. -/
def emptyObj : JSON := .obj .nil

/-- JS truthiness test of an optional version string
(`if (currentVersion && ...)`): `null` and the empty string are falsy. -/
def truthyVer : Option Name → Bool
  | none => false
  | some c => !(c == [])

/-- External diff codec capability surface: `diff(a, b)` returns a delta
or `undefined` when equal, `patch(a, delta)` applies a delta. -/
structure DiffCodec where
  diff : JSON → JSON → Option JSON
  patch : JSON → JSON → JSON

/-- Contract of the diff codec per the spec: no delta exactly for equal
values, applying `diff(a, b)` to `a` yields `b`, and deltas are truthy
JS values (jsondiffpatch deltas are objects or arrays). -/
structure DiffCodec.Lawful (c : DiffCodec) : Prop where
  diff_eq_none : ∀ a b, c.diff a b = none ↔ a = b
  patch_diff : ∀ a b d, c.diff a b = some d → c.patch a d = b
  diff_truthy : ∀ a b d, c.diff a b = some d → jsFalsy d = false

/-- Concrete lawful codec mirroring jsondiffpatch whole-value
replacement deltas `[oldValue, newValue]`. -/
def replaceCodec : DiffCodec where
  diff a b := if a = b then none else some (.arr (.cons a (.cons b .nil)))
  patch a d :=
    match d with
    | .arr (.cons _ (.cons b .nil)) => b
    | _ => a

/-- Value the synchronous `saveNewVersion` reads as the current source
object: the parsed snapshot when the file exists (JS `null` when it is
malformed), the empty object when the file is missing
(`fs.existsSync(...) ? this.readJsonFile(...) : {}`). -/
def sourceObjOf (s : Store) : JSON :=
  match s.source with
  | .missing => emptyObj
  | fd => readFileData fd

/-- Synchronous `getCurrentVersion`: reads the head file and returns
`String(headData.version)`, or `null` when the field is `undefined`.
Reading `.version` off a `null` head datum throws. -/
def VersionControl.getCurrentVersion (s : Store) : Except Unit (Option Name) :=
  match jsGetProp (readFileData s.headF) "version" with
  | .error _ => .error ()
  | .ok none => .ok none
  | .ok (some v) => .ok (some (jsToString v).data)

/-- Asynchronous `getCurrentVersion`: same body inside try/catch, so the
TypeError on a `null` head datum is caught and reported as `null`. -/
def VersionControlAsync.getCurrentVersion (s : Store) : Option Name :=
  match jsGetProp (readFileData s.headF) "version" with
  | .error _ => none
  | .ok none => none
  | .ok (some v) => some (jsToString v).data

/-- Synchronous `getHistoryVersions`: lists the history directory
(`readdirSync` throws when it is missing, uncaught), keeps pattern
matches, sorts numerically ascending. -/
def VersionControl.getHistoryVersions (pre : Name) (s : Store) :
    Except Unit (List Name) :=
  match s.histDir with
  | none => .error ()
  | some files => .ok (listVersions pre files)

/-- Asynchronous `getHistoryVersions`: identical body inside try/catch;
a listing failure is caught and reported as the empty list. -/
def VersionControlAsync.getHistoryVersions (pre : Name) (s : Store) :
    List Name :=
  match s.histDir with
  | none => []
  | some files => listVersions pre files

/-- Shared navigation lookup: the chain entry immediately before the
current version, when the current version is truthy, present in the
chain, and not first. -/
def navPrev (cur : Option Name) (hist : List Name) : Option Name :=
  match cur with
  | none => none
  | some c =>
      if c ≠ [] ∧ c ∈ hist then
        if 0 < hist.indexOf c then hist[hist.indexOf c - 1]? else none
      else none

/-- Shared navigation lookup: the chain entry immediately after the
current version, when the current version is truthy, present in the
chain, and not last. -/
def navNext (cur : Option Name) (hist : List Name) : Option Name :=
  match cur with
  | none => none
  | some c =>
      if c ≠ [] ∧ c ∈ hist then
        if hist.indexOf c < hist.length - 1 then hist[hist.indexOf c + 1]?
        else none
      else none

/-- Synchronous `getPreviousVersion`. -/
def VersionControl.getPreviousVersion (pre : Name) (s : Store) :
    Except Unit (Option Name) :=
  match VersionControl.getCurrentVersion s with
  | .error _ => .error ()
  | .ok cur =>
      match VersionControl.getHistoryVersions pre s with
      | .error _ => .error ()
      | .ok hist => .ok (navPrev cur hist)

/-- Synchronous `getNextVersion`. -/
def VersionControl.getNextVersion (pre : Name) (s : Store) :
    Except Unit (Option Name) :=
  match VersionControl.getCurrentVersion s with
  | .error _ => .error ()
  | .ok cur =>
      match VersionControl.getHistoryVersions pre s with
      | .error _ => .error ()
      | .ok hist => .ok (navNext cur hist)

/-- Asynchronous `getPreviousVersion` (try/catch wrapped, subcalls never
throw). -/
def VersionControlAsync.getPreviousVersion (pre : Name) (s : Store) :
    Option Name :=
  navPrev (VersionControlAsync.getCurrentVersion s)
    (VersionControlAsync.getHistoryVersions pre s)

/-- Asynchronous `getNextVersion`. -/
def VersionControlAsync.getNextVersion (pre : Name) (s : Store) :
    Option Name :=
  navNext (VersionControlAsync.getCurrentVersion s)
    (VersionControlAsync.getHistoryVersions pre s)

/-- Synchronous `saveNewVersion` at clock value `now` (`Date.now()`).
Reads the snapshot (missing file read as the empty object), diffs it
against the target, returns `null` writing nothing when the delta is
absent, and otherwise performs the three writes in program order: the
diff record, the head file, the patched snapshot.  Writing into a
missing history directory throws before anything is written. -/
def VersionControl.saveNewVersion (c : DiffCodec) (pre : Name) (now : Nat)
    (target : JSON) (s : Store) :
    Except Unit (Option JSON × List WriteEvent × Store) :=
  let sourceObj := sourceObjOf s
  match c.diff sourceObj target with
  | none => .ok (none, [], s)
  | some d =>
      if jsFalsy d then .ok (none, [], s)
      else
        match s.histDir with
        | none => .error ()
        | some _ =>
            let patched := c.patch sourceObj d
            let evs : List WriteEvent :=
              [.wHist (versionFileName pre (natDigits now)) d,
               .wHead (headObj (natDigits now)),
               .wSource patched]
            .ok (some patched, evs, evs.foldl applyEvent s)

/-- Asynchronous `saveNewVersion`: the snapshot is read with
`readJsonFile` only, so a missing snapshot file reads as JS `null`, not
the empty object; the body is try/catch wrapped, so a write failure on a
missing history directory is caught and reported as `null`. -/
def VersionControlAsync.saveNewVersion (c : DiffCodec) (pre : Name)
    (now : Nat) (target : JSON) (s : Store) :
    Option JSON × List WriteEvent × Store :=
  let sourceObj := readFileData s.source
  match c.diff sourceObj target with
  | none => (none, [], s)
  | some d =>
      if jsFalsy d then (none, [], s)
      else
        match s.histDir with
        | none => (none, [], s)
        | some _ =>
            let patched := c.patch sourceObj d
            let evs : List WriteEvent :=
              [.wHist (versionFileName pre (natDigits now)) d,
               .wHead (headObj (natDigits now)),
               .wSource patched]
            (some patched, evs, evs.foldl applyEvent s)

/-- Replay loop of `getSourceFromVersion`: fold the diffs of the listed
versions over the seed value; a falsy diff read (missing file or falsy
content) aborts with `null`. -/
def replayDiffs (c : DiffCodec) (pre : Name) (files : List (Name × JSON)) :
    JSON → List Name → Option JSON
  | seed, [] => some seed
  | seed, ver :: rest =>
      let d := readHistFile files (versionFileName pre ver)
      if jsFalsy d then none
      else replayDiffs c pre files (c.patch seed d) rest

/-- Synchronous `getSourceFromVersion`: requires a truthy current
version and membership of the requested version in the chain, then
replays the chain prefix up to and including that version, seeded from
the snapshot file read by `readJsonFile` (JS `null` when missing). -/
def VersionControl.getSourceFromVersion (c : DiffCodec) (pre : Name)
    (s : Store) (version : Name) : Except Unit (Option JSON) :=
  match VersionControl.getCurrentVersion s with
  | .error _ => .error ()
  | .ok cur =>
      match s.histDir with
      | none => .error ()
      | some files =>
          if truthyVer cur ∧ version ∈ listVersions pre files then
            .ok (replayDiffs c pre files (readFileData s.source)
              ((listVersions pre files).take
                ((listVersions pre files).indexOf version + 1)))
          else .ok none

/-- Synchronous `applyVersionToSource`: reconstructs the version and, at
the JS check `if (!sourceObj)`, treats any falsy reconstruction result
exactly like the `null` not-found sentinel; on success writes the
snapshot then the head file. -/
def VersionControl.applyVersionToSource (c : DiffCodec) (pre : Name)
    (s : Store) (version : Name) :
    Except Unit (Option JSON × List WriteEvent × Store) :=
  match VersionControl.getSourceFromVersion c pre s version with
  | .error _ => .error ()
  | .ok r =>
      if jsFalsy (r.getD .null) then .ok (none, [], s)
      else
        .ok (some (r.getD .null),
          [.wSource (r.getD .null), .wHead (headObj version)],
          ([(.wSource (r.getD .null) : WriteEvent),
            .wHead (headObj version)]).foldl applyEvent s)

/-- Synchronous `applyPreviousVersion`. -/
def VersionControl.applyPreviousVersion (c : DiffCodec) (pre : Name)
    (s : Store) : Except Unit (Option JSON × List WriteEvent × Store) :=
  match VersionControl.getPreviousVersion pre s with
  | .error _ => .error ()
  | .ok none => .ok (none, [], s)
  | .ok (some p) =>
      if p = [] then .ok (none, [], s)
      else VersionControl.applyVersionToSource c pre s p

/-- Synchronous `applyLatestVersion`. -/
def VersionControl.applyLatestVersion (c : DiffCodec) (pre : Name)
    (s : Store) : Except Unit (Option JSON × List WriteEvent × Store) :=
  match VersionControl.getHistoryVersions pre s with
  | .error _ => .error ()
  | .ok hist =>
      match hist.getLast? with
      | none => .ok (none, [], s)
      | some last => VersionControl.applyVersionToSource c pre s last

/-- Reconstruction seeded from the empty object, following the spec's
§4.4 contract (NotFound when the identifier is absent from the chain or
the head pointer is none) with the replay loop of the source but the
empty object as base value, as §8 and §9 prescribe. -/
def specReconstruct (c : DiffCodec) (pre : Name) (s : Store)
    (version : Name) : Option JSON :=
  match s.histDir with
  | none => none
  | some files =>
      if truthyVer (VersionControlAsync.getCurrentVersion s) ∧
          version ∈ listVersions pre files then
        replayDiffs c pre files emptyObj
          ((listVersions pre files).take
            ((listVersions pre files).indexOf version + 1))
      else none

/-- Store produced by the synchronous constructor on a fresh location:
no snapshot file, head file created with content `{}`, empty history
directory. -/
def initStore : Store :=
  { source := .missing, headF := .jsonData emptyObj, histDir := some [] }

/-- Store produced by the asynchronous `init()` on a fresh location:
snapshot file created with `{}`, head file created with content
`{ version: null }`, empty history directory. -/
def initStoreAsync : Store :=
  { source := .jsonData emptyObj,
    headF := .jsonData (.obj (.cons "version" .null .nil)),
    histDir := some [] }

/-- Iterated synchronous saves: each entry is a clock value paired with
a target document. -/
def VersionControl.applySaves (c : DiffCodec) (pre : Name) :
    List (Nat × JSON) → Store → Store
  | [], s => s
  | (now, t) :: rest, s =>
      match VersionControl.saveNewVersion c pre now t s with
      | .ok (_, _, s1) => VersionControl.applySaves c pre rest s1
      | .error _ => s

/-! ## Lemmas about identifiers and file names -/

theorem digitChar_isDigit {d : Nat} (h : d < 10) :
    (Nat.digitChar d).isDigit = true := by
  interval_cases d <;> decide

theorem digitChar_toNat {d : Nat} (h : d < 10) :
    (Nat.digitChar d).toNat - 48 = d := by
  interval_cases d <;> decide

theorem digitsVal_snoc (xs : Name) (c : Char) :
    digitsVal (xs ++ [c]) = 10 * digitsVal xs + (c.toNat - 48) := by
  simp [digitsVal, List.foldl_append, Nat.mul_comm]

theorem natDigitsAux_ne_nil {fuel n : Nat} (h : n < fuel) :
    natDigitsAux fuel n ≠ [] := by
  induction fuel generalizing n with
  | zero => omega
  | succ fuel ih =>
      unfold natDigitsAux
      split
      · simp
      · simp

theorem natDigitsAux_all_digits {fuel n : Nat} (h : n < fuel) :
    (natDigitsAux fuel n).all Char.isDigit = true := by
  induction fuel generalizing n with
  | zero => omega
  | succ fuel ih =>
      unfold natDigitsAux
      split
      · next h10 => simp [digitChar_isDigit h10]
      · next h10 =>
          have hrec : n / 10 < fuel := by omega
          have := ih hrec
          simp_all [List.all_append, digitChar_isDigit (Nat.mod_lt n (by omega))]

theorem digitsVal_natDigitsAux {fuel n : Nat} (h : n < fuel) :
    digitsVal (natDigitsAux fuel n) = n := by
  induction fuel generalizing n with
  | zero => omega
  | succ fuel ih =>
      unfold natDigitsAux
      split
      · next h10 =>
          simpa [digitsVal] using digitChar_toNat h10
      · next h10 =>
          have hrec : n / 10 < fuel := by omega
          rw [digitsVal_snoc, ih hrec, digitChar_toNat (Nat.mod_lt n (by omega))]
          omega

theorem natDigits_ne_nil (n : Nat) : natDigits n ≠ [] :=
  natDigitsAux_ne_nil (Nat.lt_succ_self n)

theorem natDigits_all_digits (n : Nat) :
    (natDigits n).all Char.isDigit = true :=
  natDigitsAux_all_digits (Nat.lt_succ_self n)

theorem digitsVal_natDigits (n : Nat) : digitsVal (natDigits n) = n :=
  digitsVal_natDigitsAux (Nat.lt_succ_self n)

theorem natDigits_inj {m n : Nat} (h : natDigits m = natDigits n) : m = n := by
  have := congrArg digitsVal h
  rwa [digitsVal_natDigits, digitsVal_natDigits] at this

theorem matchDiffName_versionFileName {pre ds : Name} (h1 : ds ≠ [])
    (h2 : ds.all Char.isDigit = true) :
    matchDiffName pre (versionFileName pre ds) = some ds := by
  unfold matchDiffName versionFileName
  rw [List.append_assoc]
  have hlen : List.length ds + List.length diffExt - 5 = List.length ds := by
    simp [diffExt]
  have h2' := h2
  rw [List.all_eq_true] at h2'
  simp [hlen, List.take_left, List.drop_left, List.length_eq_zero, h1]
  exact h2'

theorem matchDiffName_some {pre name ds : Name}
    (h : matchDiffName pre name = some ds) :
    name = versionFileName pre ds ∧ ds ≠ [] ∧ ds.all Char.isDigit = true := by
  unfold matchDiffName at h
  split at h
  · next hc =>
      obtain ⟨h1, h2, h3, h4⟩ := hc
      injection h with h5
      subst h5
      refine ⟨?_, h3, h4⟩
      unfold versionFileName
      rw [List.append_assoc]
      have hres : name.drop pre.length =
          (name.drop pre.length).take ((name.drop pre.length).length - 5) ++
            diffExt := by
        conv_lhs => rw [← List.take_append_drop
          ((name.drop pre.length).length - 5) (name.drop pre.length)]
        rw [h2]
      conv_lhs => rw [← List.take_append_drop pre.length name]
      rw [h1, ← hres]
  · exact absurd h (by simp)

theorem matchDiffName_inj {pre n1 n2 ds : Name}
    (h1 : matchDiffName pre n1 = some ds)
    (h2 : matchDiffName pre n2 = some ds) : n1 = n2 := by
  rw [(matchDiffName_some h1).1, (matchDiffName_some h2).1]

/-! ## Lemmas about the version chain -/

theorem listVersions_perm (pre : Name) (files : List (Name × JSON)) :
    (listVersions pre files).Perm
      ((files.map Prod.fst).filterMap (matchDiffName pre)) :=
  List.perm_insertionSort _ _

theorem mem_listVersions {pre : Name} {files : List (Name × JSON)} {v : Name} :
    v ∈ listVersions pre files ↔
      v ∈ (files.map Prod.fst).filterMap (matchDiffName pre) :=
  (listVersions_perm pre files).mem_iff

theorem listVersions_sorted (pre : Name) (files : List (Name × JSON)) :
    (listVersions pre files).Sorted (fun a b => digitsVal a ≤ digitsVal b) := by
  haveI : IsTotal Name (fun a b => digitsVal a ≤ digitsVal b) :=
    ⟨fun a b => Nat.le_total _ _⟩
  haveI : IsTrans Name (fun a b => digitsVal a ≤ digitsVal b) :=
    ⟨fun _ _ _ => Nat.le_trans⟩
  exact List.sorted_insertionSort _ _

theorem mem_listVersions_props {pre : Name} {files : List (Name × JSON)}
    {v : Name} (h : v ∈ listVersions pre files) :
    v ≠ [] ∧ v.all Char.isDigit = true ∧
      versionFileName pre v ∈ files.map Prod.fst := by
  rw [mem_listVersions, List.mem_filterMap] at h
  obtain ⟨name, hname, hmatch⟩ := h
  obtain ⟨heq, hne, hdig⟩ := matchDiffName_some hmatch
  exact ⟨hne, hdig, heq ▸ hname⟩

theorem listVersions_nodup {pre : Name} {files : List (Name × JSON)}
    (h : (files.map Prod.fst).Nodup) : (listVersions pre files).Nodup :=
  ((listVersions_perm pre files).nodup_iff).mpr
    (h.filterMap (fun _ _ _ hb hb' =>
      matchDiffName_inj (Option.mem_def.mp hb) (Option.mem_def.mp hb')))

theorem pairwise_lt_of_sorted_nodupkeys {l : List Name}
    (hs : l.Sorted (fun a b => digitsVal a ≤ digitsVal b))
    (hn : (l.map digitsVal).Nodup) :
    l.Pairwise (fun a b => digitsVal a < digitsVal b) := by
  have hne : l.Pairwise (fun a b => digitsVal a ≠ digitsVal b) :=
    List.pairwise_map.mp hn
  exact (List.Pairwise.and hs hne).imp
    (fun h => Nat.lt_of_le_of_ne h.1 h.2)

theorem keys_nodup_of_pairwise_lt {l : List Name}
    (h : l.Pairwise (fun a b => digitsVal a < digitsVal b)) :
    (l.map digitsVal).Nodup :=
  List.pairwise_map.mpr (h.imp (fun hl => Nat.ne_of_lt hl))

theorem sorted_key_unique {l₁ l₂ : List Name} (hp : l₁.Perm l₂)
    (h₁ : l₁.Pairwise (fun a b => digitsVal a < digitsVal b))
    (h₂ : l₂.Pairwise (fun a b => digitsVal a < digitsVal b)) : l₁ = l₂ := by
  haveI : IsAntisymm Name (fun a b => digitsVal a < digitsVal b) :=
    ⟨fun a b h h2 => absurd (Nat.lt_trans h h2) (Nat.lt_irrefl _)⟩
  exact List.eq_of_perm_of_sorted hp h₁ h₂

theorem listVersions_snoc_fresh {pre : Name} {files : List (Name × JSON)}
    {ds : Name} {d : JSON} (hds : ds ≠ [])
    (hdig : ds.all Char.isDigit = true)
    (hstrict : (listVersions pre files).Pairwise
      (fun a b => digitsVal a < digitsVal b))
    (hfresh : ∀ v ∈ listVersions pre files, digitsVal v < digitsVal ds) :
    listVersions pre (files ++ [(versionFileName pre ds, d)]) =
      listVersions pre files ++ [ds] := by
  have hfm : ((files ++ [(versionFileName pre ds, d)]).map
        Prod.fst).filterMap (matchDiffName pre) =
      (files.map Prod.fst).filterMap (matchDiffName pre) ++ [ds] := by
    rw [List.map_append, List.filterMap_append]
    simp [matchDiffName_versionFileName hds hdig]
  have hperm : (listVersions pre
        (files ++ [(versionFileName pre ds, d)])).Perm
      (listVersions pre files ++ [ds]) := by
    refine (listVersions_perm _ _).trans ?_
    rw [hfm]
    exact ((listVersions_perm pre files).symm).append_right _
  have hrhs : (listVersions pre files ++ [ds]).Pairwise
      (fun a b => digitsVal a < digitsVal b) := by
    rw [List.pairwise_append]
    exact ⟨hstrict, List.pairwise_singleton _ _,
      fun a ha b hb => (List.mem_singleton.mp hb) ▸ hfresh a ha⟩
  have hlhs : (listVersions pre
        (files ++ [(versionFileName pre ds, d)])).Pairwise
      (fun a b => digitsVal a < digitsVal b) := by
    refine pairwise_lt_of_sorted_nodupkeys (listVersions_sorted _ _) ?_
    have : ((listVersions pre files ++ [ds]).map digitsVal).Nodup :=
      keys_nodup_of_pairwise_lt hrhs
    exact ((hperm.map digitsVal).nodup_iff).mpr this
  exact sorted_key_unique hperm hlhs hrhs

/-! ## Lemmas about directory writes and diff replay -/

theorem upsert_not_mem {name : Name} {v : JSON}
    {files : List (Name × JSON)} (h : name ∉ files.map Prod.fst) :
    upsert name v files = files ++ [(name, v)] := by
  induction files with
  | nil => rfl
  | cons hd tl ih =>
      obtain ⟨n, w⟩ := hd
      rw [List.map_cons, List.mem_cons, not_or] at h
      unfold upsert
      rw [if_neg (fun heq => h.1 heq.symm)]
      rw [ih h.2, List.cons_append]

theorem lookupFile_snoc_ne {files : List (Name × JSON)} {n name : Name}
    {v : JSON} (h : name ≠ n) :
    lookupFile (files ++ [(n, v)]) name = lookupFile files name := by
  induction files with
  | nil =>
      simp only [List.nil_append, lookupFile]
      rw [if_neg (fun heq => h heq.symm)]
  | cons hd tl ih =>
      obtain ⟨m, w⟩ := hd
      rw [List.cons_append]
      simp only [lookupFile]
      by_cases hm : m = name
      · rw [if_pos hm, if_pos hm]
      · rw [if_neg hm, if_neg hm]
        exact ih

theorem lookupFile_snoc_self {files : List (Name × JSON)} {n : Name}
    {v : JSON} (h : n ∉ files.map Prod.fst) :
    lookupFile (files ++ [(n, v)]) n = some v := by
  induction files with
  | nil => simp [lookupFile]
  | cons hd tl ih =>
      obtain ⟨m, w⟩ := hd
      rw [List.map_cons, List.mem_cons, not_or] at h
      rw [List.cons_append]
      unfold lookupFile
      rw [if_neg (fun heq => h.1 heq.symm)]
      exact ih h.2

theorem replayDiffs_congr {c : DiffCodec} {pre : Name}
    {files₁ files₂ : List (Name × JSON)} {vers : List Name}
    (h : ∀ ver ∈ vers, readHistFile files₂ (versionFileName pre ver) =
      readHistFile files₁ (versionFileName pre ver)) :
    ∀ seed, replayDiffs c pre files₂ seed vers =
      replayDiffs c pre files₁ seed vers := by
  induction vers with
  | nil => intro seed; rfl
  | cons ver rest ih =>
      intro seed
      unfold replayDiffs
      rw [h ver (List.mem_cons_self _ _)]
      by_cases hf : jsFalsy (readHistFile files₁ (versionFileName pre ver)) = true
      · rw [if_pos hf, if_pos hf]
      · rw [if_neg hf, if_neg hf]
        exact ih (fun w hw => h w (List.mem_cons_of_mem _ hw)) _

theorem replayDiffs_snoc {c : DiffCodec} {pre : Name}
    {files : List (Name × JSON)} {vers : List Name} {ver : Name} :
    ∀ seed, replayDiffs c pre files seed (vers ++ [ver]) =
      (replayDiffs c pre files seed vers).bind (fun mid =>
        if jsFalsy (readHistFile files (versionFileName pre ver)) then none
        else some (c.patch mid (readHistFile files (versionFileName pre ver)))) := by
  induction vers with
  | nil =>
      intro seed
      rw [List.nil_append]
      unfold replayDiffs
      by_cases hf : jsFalsy (readHistFile files (versionFileName pre ver)) = true
      · rw [if_pos hf]; simp [hf]
      · rw [if_neg hf]
        unfold replayDiffs
        simp [hf]
  | cons w rest ih =>
      intro seed
      rw [List.cons_append]
      unfold replayDiffs
      by_cases hf : jsFalsy (readHistFile files (versionFileName pre w)) = true
      · rw [if_pos hf, if_pos hf]; rfl
      · rw [if_neg hf, if_neg hf]
        exact ih _

theorem indexOf_snoc_self {l : List Name} {x : Name} (h : x ∉ l) :
    (l ++ [x]).indexOf x = l.length := by
  induction l with
  | nil => simp [List.indexOf_cons]
  | cons a tl ih =>
      rw [List.mem_cons, not_or] at h
      rw [List.cons_append, List.indexOf_cons]
      have : (a == x) = false := by
        simp [beq_eq_false_iff_ne]
        exact fun heq => h.1 heq.symm
      rw [this]
      simp [ih h.2]

theorem getElem?_indexOf_self {l : List Name} {a : Name} (h : a ∈ l) :
    l[l.indexOf a]? = some a := by
  induction l with
  | nil => cases h
  | cons x xs ih =>
      rw [List.indexOf_cons]
      by_cases hx : x = a
      · subst hx; simp
      · have hbeq : (x == a) = false := beq_eq_false_iff_ne.mpr hx
        rw [hbeq]
        simp only [cond_false, List.getElem?_cons_succ]
        exact ih ((List.mem_cons.mp h).resolve_left (fun he => hx he.symm))

theorem indexOf_lt_length_self {l : List Name} {a : Name} (h : a ∈ l) :
    l.indexOf a < l.length := by
  induction l with
  | nil => cases h
  | cons x xs ih =>
      rw [List.indexOf_cons]
      by_cases hx : x = a
      · subst hx; simp
      · have hbeq : (x == a) = false := beq_eq_false_iff_ne.mpr hx
        rw [hbeq]
        simp only [cond_false, List.length_cons]
        exact Nat.succ_lt_succ
          (ih ((List.mem_cons.mp h).resolve_left (fun he => hx he.symm)))

theorem indexOf_of_getElem? {l : List Name} {i : Nat} {a : Name}
    (hn : l.Nodup) (h : l[i]? = some a) : l.indexOf a = i := by
  have hmem : a ∈ l := List.getElem?_mem h
  have h1 : l[l.indexOf a]? = some a := getElem?_indexOf_self hmem
  have h2 : l.indexOf a < l.length := indexOf_lt_length_self hmem
  exact List.getElem?_inj h2 hn (h1.trans h.symm)

/-! ## Save-step machinery -/

theorem versionFileName_inj {pre a b : Name}
    (h : versionFileName pre a = versionFileName pre b) : a = b := by
  unfold versionFileName at h
  exact List.append_cancel_left (List.append_cancel_right h)

theorem pairwise_lt_natDigits {ids : List Nat} (h : ids.Pairwise (· < ·)) :
    (ids.map natDigits).Pairwise (fun a b => digitsVal a < digitsVal b) := by
  rw [List.pairwise_map]
  exact h.imp (fun hl => by simpa [digitsVal_natDigits] using hl)

theorem versionFileName_not_mem {pre : Name} {files : List (Name × JSON)}
    {ids : List Nat} {now : Nat}
    (hlv : listVersions pre files = ids.map natDigits)
    (hfresh : ∀ i ∈ ids, i < now) :
    versionFileName pre (natDigits now) ∉ files.map Prod.fst := by
  intro hmem
  have hin : natDigits now ∈ listVersions pre files := by
    rw [mem_listVersions, List.mem_filterMap]
    exact ⟨_, hmem, matchDiffName_versionFileName (natDigits_ne_nil now)
      (natDigits_all_digits now)⟩
  rw [hlv, List.mem_map] at hin
  obtain ⟨i, hi, heq⟩ := hin
  have hi' := natDigits_inj heq
  subst hi'
  exact absurd (hfresh _ hi) (Nat.lt_irrefl _)

/-- Shape invariant of stores reachable by saves: the history directory
exists, its names are distinct, its chain is exactly the identifiers of
`ids` (strictly increasing) in render form, and replaying the full chain
from the empty object reproduces the value the save operation reads as
the current snapshot. -/
def GoodState (c : DiffCodec) (pre : Name) (s : Store)
    (ids : List Nat) : Prop :=
  ∃ files, s.histDir = some files ∧
    (files.map Prod.fst).Nodup ∧
    listVersions pre files = ids.map natDigits ∧
    ids.Pairwise (· < ·) ∧
    replayDiffs c pre files emptyObj (listVersions pre files) =
      some (sourceObjOf s)

theorem goodState_init (c : DiffCodec) (pre : Name) :
    GoodState c pre initStore [] := by
  refine ⟨[], rfl, ?_, ?_, ?_, ?_⟩ <;> simp [listVersions, replayDiffs,
    initStore, sourceObjOf, List.insertionSort]

theorem saveNewVersion_noop {c : DiffCodec} (hc : c.Lawful) (pre : Name)
    (now : Nat) {s : Store} {t : JSON} (ht : t = sourceObjOf s) :
    VersionControl.saveNewVersion c pre now t s = .ok (none, [], s) := by
  unfold VersionControl.saveNewVersion
  simp only [(hc.diff_eq_none (sourceObjOf s) t).mpr ht.symm]

theorem saveNewVersion_write {c : DiffCodec} (hc : c.Lawful) (pre : Name)
    (now : Nat) {s : Store} {files : List (Name × JSON)} {d : JSON}
    (hdir : s.histDir = some files) {t : JSON}
    (hd : c.diff (sourceObjOf s) t = some d)
    (hfr : versionFileName pre (natDigits now) ∉ files.map Prod.fst) :
    VersionControl.saveNewVersion c pre now t s =
      .ok (some t,
        [.wHist (versionFileName pre (natDigits now)) d,
         .wHead (headObj (natDigits now)), .wSource t],
        { source := .jsonData t,
          headF := .jsonData (headObj (natDigits now)),
          histDir := some
            (files ++ [(versionFileName pre (natDigits now), d)]) }) := by
  have hfalsy : jsFalsy d = false := hc.diff_truthy _ _ _ hd
  have hpatch : c.patch (sourceObjOf s) d = t := hc.patch_diff _ _ _ hd
  have hupsert := upsert_not_mem (v := d) hfr
  unfold VersionControl.saveNewVersion
  simp only [hd, hfalsy, hdir, Bool.false_eq_true, if_false, List.foldl,
    applyEvent, hupsert, hpatch]
  simp [hupsert]

/-- Store state after a successful save: patched snapshot written, head
advanced to the minted identifier, diff record appended. -/
def savedStore (pre : Name) (now : Nat) (t d : JSON)
    (files : List (Name × JSON)) : Store :=
  { source := .jsonData t,
    headF := .jsonData (headObj (natDigits now)),
    histDir := some (files ++ [(versionFileName pre (natDigits now), d)]) }

theorem natDigits_not_mem_map {ids : List Nat} {now : Nat}
    (hfresh : ∀ i ∈ ids, i < now) : natDigits now ∉ ids.map natDigits := by
  intro hmem
  rw [List.mem_map] at hmem
  obtain ⟨i, hi, heq⟩ := hmem
  have := natDigits_inj heq
  subst this
  exact absurd (hfresh _ hi) (Nat.lt_irrefl _)

theorem goodState_saved {c : DiffCodec} (hc : c.Lawful) {pre : Name}
    {s : Store} {files : List (Name × JSON)} {ids : List Nat}
    {d : JSON} {now : Nat} {t : JSON}
    (hnodup : (files.map Prod.fst).Nodup)
    (hlv : listVersions pre files = ids.map natDigits)
    (hpw : ids.Pairwise (· < ·))
    (hreplay : replayDiffs c pre files emptyObj (listVersions pre files) =
      some (sourceObjOf s))
    (hfresh : ∀ i ∈ ids, i < now)
    (hd : c.diff (sourceObjOf s) t = some d) :
    GoodState c pre (savedStore pre now t d files) (ids ++ [now]) := by
  have hfr : versionFileName pre (natDigits now) ∉ files.map Prod.fst :=
    versionFileName_not_mem hlv hfresh
  have hstrict : (listVersions pre files).Pairwise
      (fun a b => digitsVal a < digitsVal b) := by
    rw [hlv]; exact pairwise_lt_natDigits hpw
  have hfresh' : ∀ v ∈ listVersions pre files,
      digitsVal v < digitsVal (natDigits now) := by
    intro v hv
    rw [hlv, List.mem_map] at hv
    obtain ⟨i, hi, rfl⟩ := hv
    rw [digitsVal_natDigits, digitsVal_natDigits]
    exact hfresh i hi
  have hsnoc := listVersions_snoc_fresh (d := d) (natDigits_ne_nil now)
    (natDigits_all_digits now) hstrict hfresh'
  refine ⟨files ++ [(versionFileName pre (natDigits now), d)], rfl,
    ?_, ?_, ?_, ?_⟩
  · rw [List.map_append]
    rw [List.nodup_append]
    refine ⟨hnodup, List.nodup_singleton _, fun a ha hb => ?_⟩
    simp only [List.map_cons, List.map_nil, List.mem_singleton] at hb
    rw [hb] at ha
    exact hfr ha
  · rw [hsnoc, hlv, List.map_append]
    rfl
  · rw [List.pairwise_append]
    exact ⟨hpw, List.pairwise_singleton _ _,
      fun a ha b hb => (List.mem_singleton.mp hb) ▸ hfresh a ha⟩
  · rw [hsnoc, replayDiffs_snoc]
    have hcongr : replayDiffs c pre
        (files ++ [(versionFileName pre (natDigits now), d)]) emptyObj
        (listVersions pre files) =
        replayDiffs c pre files emptyObj (listVersions pre files) := by
      refine replayDiffs_congr (fun ver hver => ?_) _
      have hlt := hfresh' ver hver
      have hne : versionFileName pre ver ≠
          versionFileName pre (natDigits now) := by
        intro heq
        have hv := versionFileName_inj heq
        rw [hv] at hlt
        exact absurd hlt (Nat.lt_irrefl _)
      unfold readHistFile
      rw [lookupFile_snoc_ne hne]
    rw [hcongr, hreplay]
    have hread : readHistFile
        (files ++ [(versionFileName pre (natDigits now), d)])
        (versionFileName pre (natDigits now)) = d := by
      unfold readHistFile
      rw [lookupFile_snoc_self hfr]
      rfl
    have hsrc : sourceObjOf (savedStore pre now t d files) = t := by
      unfold savedStore sourceObjOf
      rfl
    simp [hread, hsrc, hc.diff_truthy _ _ _ hd, hc.patch_diff _ _ _ hd]

theorem goodState_applySaves {c : DiffCodec} (hc : c.Lawful) {pre : Name} :
    ∀ (saves : List (Nat × JSON)) (s : Store) (ids : List Nat),
      GoodState c pre s ids →
      (∀ i ∈ ids, ∀ x ∈ saves.map Prod.fst, i < x) →
      (saves.map Prod.fst).Pairwise (· < ·) →
      ∃ ids2, GoodState c pre (VersionControl.applySaves c pre saves s) ids2 ∧
        ∀ i ∈ ids2, i ∈ ids ∨ i ∈ saves.map Prod.fst := by
  intro saves
  induction saves with
  | nil =>
      intro s ids hg _ _
      exact ⟨ids, hg, fun i hi => Or.inl hi⟩
  | cons hd rest ih =>
      obtain ⟨t0, v0⟩ := hd
      intro s ids hg hbound hpw
      rw [List.map_cons] at hbound hpw
      rw [List.pairwise_cons] at hpw
      by_cases hv : v0 = sourceObjOf s
      · have hsave := saveNewVersion_noop hc pre t0 hv
        unfold VersionControl.applySaves
        rw [hsave]
        obtain ⟨ids2, hg2, hmem2⟩ := ih s ids hg
          (fun i hi x hx => hbound i hi x (List.mem_cons_of_mem _ hx)) hpw.2
        exact ⟨ids2, hg2, fun i hi => (hmem2 i hi).imp id
          (fun h => List.mem_cons_of_mem _ h)⟩
      · obtain ⟨files, hdir, hnodup, hlv, hpws, hreplay⟩ := hg
        have hfresh : ∀ i ∈ ids, i < t0 :=
          fun i hi => hbound i hi t0 (List.mem_cons_self _ _)
        have hdne : c.diff (sourceObjOf s) v0 ≠ none :=
          fun h => hv ((hc.diff_eq_none _ _).mp h).symm
        obtain ⟨d, hd⟩ := Option.ne_none_iff_exists'.mp hdne
        have hfr : versionFileName pre (natDigits t0) ∉ files.map Prod.fst :=
          versionFileName_not_mem hlv hfresh
        have hsave := saveNewVersion_write hc pre t0 hdir hd hfr
        unfold VersionControl.applySaves
        rw [hsave]
        have hg' : GoodState c pre (savedStore pre t0 v0 d files)
            (ids ++ [t0]) :=
          goodState_saved hc hnodup hlv hpws hreplay hfresh hd
        obtain ⟨ids2, hg2, hmem2⟩ := ih (savedStore pre t0 v0 d files)
          (ids ++ [t0]) hg'
          (fun i hi x hx => by
            rcases List.mem_append.mp hi with h1 | h1
            · exact hbound i h1 x (List.mem_cons_of_mem _ hx)
            · rw [List.mem_singleton.mp h1]
              exact hpw.1 x hx)
          hpw.2
        refine ⟨ids2, hg2, fun i hi => ?_⟩
        rcases hmem2 i hi with h1 | h1
        · rcases List.mem_append.mp h1 with h2 | h2
          · exact Or.inl h2
          · rw [List.mem_singleton.mp h2]
            exact Or.inr (List.mem_cons_self _ _)
        · exact Or.inr (List.mem_cons_of_mem _ h1)

theorem asyncGetCurrentVersion_headObj {s : Store} {ver : Name}
    (h : s.headF = .jsonData (headObj ver)) :
    VersionControlAsync.getCurrentVersion s = some ver := by
  unfold VersionControlAsync.getCurrentVersion
  rw [h]
  rfl

theorem getCurrentVersion_headObj {s : Store} {ver : Name}
    (h : s.headF = .jsonData (headObj ver)) :
    VersionControl.getCurrentVersion s = .ok (some ver) := by
  unfold VersionControl.getCurrentVersion
  rw [h]
  rfl

theorem truthyVer_some {c : Name} (h : c ≠ []) :
    truthyVer (some c) = true := by
  simp [truthyVer, h]

/-! ## Lawfulness of the concrete codec -/

theorem replaceCodec_lawful : replaceCodec.Lawful := by
  refine ⟨fun a b => ?_, fun a b d h => ?_, fun a b d h => ?_⟩
  · show (if a = b then none else some (JSON.arr (.cons a (.cons b .nil)))) =
        none ↔ a = b
    by_cases hab : a = b
    · simp [hab]
    · simp [hab]
  · revert h
    show (if a = b then none else some (JSON.arr (.cons a (.cons b .nil)))) =
        some d → replaceCodec.patch a d = b
    intro h
    split at h
    · cases h
    · injection h with h2
      rw [← h2]
      rfl
  · revert h
    show (if a = b then none else some (JSON.arr (.cons a (.cons b .nil)))) =
        some d → jsFalsy d = false
    intro h
    split at h
    · cases h
    · injection h with h2
      rw [← h2]
      rfl

/-! ## Claim C1 -/

/-- C1: for every JSON value `v` saved by `saveNewVersion` after any
sequence of prior successful saves (clock values strictly increasing
across the whole run, as `Date.now()` yields between distinct
milliseconds), replaying the diffs of the history-chain entries up to
and including the newly minted identifier, in ascending order starting
from the empty object, reproduces `v`: the reconstruction of the latest
identifier seeded from the empty object equals `v`. -/
theorem reconstruct_latest_after_save_from_empty (c : DiffCodec)
    (hc : c.Lawful) (pre : Name) (saves : List (Nat × JSON)) (now : Nat)
    (v : JSON)
    (hts : (saves.map Prod.fst ++ [now]).Pairwise (· < ·))
    (hne : v ≠ sourceObjOf (VersionControl.applySaves c pre saves initStore)) :
    ∃ evs s2,
      VersionControl.saveNewVersion c pre now v
        (VersionControl.applySaves c pre saves initStore) =
        .ok (some v, evs, s2) ∧
      specReconstruct c pre s2 (natDigits now) = some v := by
  rw [List.pairwise_append] at hts
  obtain ⟨hpw, -, hcross⟩ := hts
  obtain ⟨ids2, hg2, hmem2⟩ := goodState_applySaves hc saves initStore []
    (goodState_init c pre) (by intro i hi; cases hi) hpw
  have hfresh : ∀ i ∈ ids2, i < now := by
    intro i hi
    rcases hmem2 i hi with h | h
    · cases h
    · exact hcross i h now (List.mem_singleton.mpr rfl)
  obtain ⟨files, hdir, hnodup, hlv, hpws, hreplay⟩ := hg2
  have hdne : c.diff
      (sourceObjOf (VersionControl.applySaves c pre saves initStore)) v ≠
      none := fun h => hne ((hc.diff_eq_none _ _).mp h).symm
  obtain ⟨d, hd⟩ := Option.ne_none_iff_exists'.mp hdne
  have hfr := versionFileName_not_mem hlv hfresh
  have hsave : VersionControl.saveNewVersion c pre now v
      (VersionControl.applySaves c pre saves initStore) =
      .ok (some v,
        [.wHist (versionFileName pre (natDigits now)) d,
         .wHead (headObj (natDigits now)), .wSource v],
        savedStore pre now v d files) :=
    saveNewVersion_write hc pre now hdir hd hfr
  refine ⟨_, savedStore pre now v d files, hsave, ?_⟩
  have hg' : GoodState c pre (savedStore pre now v d files) (ids2 ++ [now]) :=
    goodState_saved hc hnodup hlv hpws hreplay hfresh hd
  obtain ⟨files2, hdir2, -, hlv2, -, hreplay2⟩ := hg'
  have hf2 : files2 = files ++ [(versionFileName pre (natDigits now), d)] := by
    have hh : (savedStore pre now v d files).histDir =
        some (files ++ [(versionFileName pre (natDigits now), d)]) := rfl
    rw [hh] at hdir2
    exact (Option.some.inj hdir2).symm
  subst hf2
  have hlv2' : listVersions pre
      (files ++ [(versionFileName pre (natDigits now), d)]) =
      ids2.map natDigits ++ [natDigits now] := by
    rw [hlv2, List.map_append]
    rfl
  rw [hlv2'] at hreplay2
  unfold specReconstruct
  have hh : (savedStore pre now v d files).histDir =
      some (files ++ [(versionFileName pre (natDigits now), d)]) := rfl
  rw [hh]
  rw [asyncGetCurrentVersion_headObj (show (savedStore pre now v d files).headF =
    .jsonData (headObj (natDigits now)) from rfl)]
  dsimp only
  rw [hlv2']
  have hcond : truthyVer (some (natDigits now)) = true ∧
      natDigits now ∈ ids2.map natDigits ++ [natDigits now] :=
    ⟨truthyVer_some (natDigits_ne_nil now),
      List.mem_append.mpr (Or.inr (List.mem_singleton.mpr rfl))⟩
  rw [if_pos hcond]
  rw [indexOf_snoc_self (natDigits_not_mem_map hfresh)]
  have htake : (ids2.map natDigits ++ [natDigits now]).take
      ((ids2.map natDigits).length + 1) =
      ids2.map natDigits ++ [natDigits now] := by
    have hlen : (ids2.map natDigits ++ [natDigits now]).length =
        (ids2.map natDigits).length + 1 := by simp
    rw [← hlen, List.take_length]
  rw [htake, hreplay2]
  rfl

/-- C1 witness: a concrete two-step run. -/
theorem reconstruct_latest_after_save_from_empty_witness :
    ∃ evs s2,
      VersionControl.saveNewVersion replaceCodec ['v'] 7 (JSON.num 2)
        (VersionControl.applySaves replaceCodec ['v']
          [(3, JSON.num 1)] initStore) =
        .ok (some (JSON.num 2), evs, s2) ∧
      specReconstruct replaceCodec ['v'] s2 (natDigits 7) =
        some (JSON.num 2) :=
  reconstruct_latest_after_save_from_empty replaceCodec replaceCodec_lawful
    ['v'] [(3, JSON.num 1)] 7 (JSON.num 2) (by decide) (by decide)

/-! ## Claim C2 -/

/-- C2: `saveNewVersion(target)` behaves per its contract.  When the
target is structurally identical to the value read as the current
document snapshot it returns the no-op sentinel and writes nothing:
version record set, head pointer and document snapshot all unchanged.
Otherwise it performs exactly three writes in program order — the new
version record (diff file), then the head pointer advanced to the
minted identifier, then the document snapshot overwritten with the
patched value — and returns the new document snapshot (which, by the
codec contract, equals the target). -/
theorem saveNewVersion_contract (c : DiffCodec) (hc : c.Lawful) (pre : Name)
    (now : Nat) (s : Store) (files : List (Name × JSON))
    (hdir : s.histDir = some files) (target : JSON) :
    (target = sourceObjOf s →
      VersionControl.saveNewVersion c pre now target s = .ok (none, [], s)) ∧
    (target ≠ sourceObjOf s → ∃ d,
      c.diff (sourceObjOf s) target = some d ∧
      VersionControl.saveNewVersion c pre now target s =
        .ok (some target,
          [.wHist (versionFileName pre (natDigits now)) d,
           .wHead (headObj (natDigits now)),
           .wSource target],
          { s with
            source := .jsonData target,
            headF := .jsonData (headObj (natDigits now)),
            histDir := some
              (upsert (versionFileName pre (natDigits now)) d files) })) := by
  constructor
  · intro ht
    exact saveNewVersion_noop hc pre now ht
  · intro ht
    have hdne : c.diff (sourceObjOf s) target ≠ none :=
      fun h => ht ((hc.diff_eq_none _ _).mp h).symm
    obtain ⟨d, hd⟩ := Option.ne_none_iff_exists'.mp hdne
    refine ⟨d, hd, ?_⟩
    have hfalsy : jsFalsy d = false := hc.diff_truthy _ _ _ hd
    have hpatch : c.patch (sourceObjOf s) d = target := hc.patch_diff _ _ _ hd
    unfold VersionControl.saveNewVersion
    simp only [hd, hfalsy, hdir, Bool.false_eq_true, if_false, List.foldl,
      applyEvent, hpatch]
    simp

/-- C2 witness: a fresh store and a non-trivial target. -/
theorem saveNewVersion_contract_witness :
    ((JSON.num 1) = sourceObjOf initStore →
      VersionControl.saveNewVersion replaceCodec ['v'] 5 (JSON.num 1)
        initStore = .ok (none, [], initStore)) ∧
    ((JSON.num 1) ≠ sourceObjOf initStore → ∃ d,
      replaceCodec.diff (sourceObjOf initStore) (JSON.num 1) = some d ∧
      VersionControl.saveNewVersion replaceCodec ['v'] 5 (JSON.num 1)
        initStore =
        .ok (some (JSON.num 1),
          [.wHist (versionFileName ['v'] (natDigits 5)) d,
           .wHead (headObj (natDigits 5)),
           .wSource (JSON.num 1)],
          { initStore with
            source := .jsonData (JSON.num 1),
            headF := .jsonData (headObj (natDigits 5)),
            histDir := some
              (upsert (versionFileName ['v'] (natDigits 5)) d []) })) :=
  saveNewVersion_contract replaceCodec replaceCodec_lawful ['v'] 5 initStore
    [] rfl (JSON.num 1)

/-! ## Claim C3 -/

/-- C3 counterexample: the claim that the two variants implement the
same logic fails.  On a store whose head file is missing, the
synchronous `getCurrentVersion` throws a TypeError (its `readJsonFile`
returns `null` and `.version` is read off `null`, uncaught) while the
asynchronous variant catches the same error and returns `null`. -/
theorem sync_async_divergence_cex :
    VersionControl.getCurrentVersion
      { source := .jsonData emptyObj, headF := .missing,
        histDir := some [] } = .error () ∧
    VersionControlAsync.getCurrentVersion
      { source := .jsonData emptyObj, headF := .missing,
        histDir := some [] } = none ∧
    VersionControl.getCurrentVersion
        { source := .jsonData emptyObj, headF := .missing,
          histDir := some [] } ≠
      .ok (VersionControlAsync.getCurrentVersion
        { source := .jsonData emptyObj, headF := .missing,
          histDir := some [] }) := by
  exact ⟨rfl, rfl, by decide⟩

/-- C3 amended: the two variants agree on `getCurrentVersion`,
`getHistoryVersions`, `getPreviousVersion`, `getNextVersion` and
`saveNewVersion` on stores where the head file parses to a non-null
value, the history directory exists, and the snapshot file is present
and parses; on other stores the synchronous variant throws where the
asynchronous one reports `null`/empty, the asynchronous save seeds the
diff from `null` rather than the empty object when the snapshot file is
missing, and the asynchronous `getSourceFromVersion` (missing `await` on
the snapshot read) does not match the synchronous reconstruction. -/
theorem sync_async_agree (c : DiffCodec) (pre : Name) (now : Nat) (t : JSON)
    (s : Store) (files : List (Name × JSON)) (w : JSON)
    (hhead : readFileData s.headF ≠ JSON.null)
    (hdir : s.histDir = some files)
    (hsrc : s.source = .jsonData w) :
    VersionControl.getCurrentVersion s =
      .ok (VersionControlAsync.getCurrentVersion s) ∧
    VersionControl.getHistoryVersions pre s =
      .ok (VersionControlAsync.getHistoryVersions pre s) ∧
    VersionControl.getPreviousVersion pre s =
      .ok (VersionControlAsync.getPreviousVersion pre s) ∧
    VersionControl.getNextVersion pre s =
      .ok (VersionControlAsync.getNextVersion pre s) ∧
    VersionControl.saveNewVersion c pre now t s =
      .ok (VersionControlAsync.saveNewVersion c pre now t s) := by
  have hcur : VersionControl.getCurrentVersion s =
      .ok (VersionControlAsync.getCurrentVersion s) := by
    unfold VersionControl.getCurrentVersion
      VersionControlAsync.getCurrentVersion
    have hok : ∃ r, jsGetProp (readFileData s.headF) "version" = .ok r := by
      cases hv : readFileData s.headF
      · exact absurd hv hhead
      all_goals exact ⟨_, rfl⟩
    obtain ⟨r, hr⟩ := hok
    rw [hr]
    cases r <;> rfl
  have hhist : VersionControl.getHistoryVersions pre s =
      .ok (VersionControlAsync.getHistoryVersions pre s) := by
    unfold VersionControl.getHistoryVersions
      VersionControlAsync.getHistoryVersions
    rw [hdir]
  have hsw : sourceObjOf s = readFileData s.source := by
    unfold sourceObjOf
    rw [hsrc]
  refine ⟨hcur, hhist, ?_, ?_, ?_⟩
  · unfold VersionControl.getPreviousVersion
      VersionControlAsync.getPreviousVersion
    rw [hcur, hhist]
  · unfold VersionControl.getNextVersion
      VersionControlAsync.getNextVersion
    rw [hcur, hhist]
  · unfold VersionControl.saveNewVersion
      VersionControlAsync.saveNewVersion
    simp only [hsw]
    cases hd : c.diff (readFileData s.source) t with
    | none => simp only [hd]
    | some d =>
        simp only [hd]
        by_cases hf : jsFalsy d = true
        · rw [if_pos hf, if_pos hf]
        · rw [if_neg hf, if_neg hf, hdir]

/-- C3 amended witness: a store produced by the asynchronous `init()`,
with concrete save inputs. -/
theorem sync_async_agree_witness :
    VersionControl.getCurrentVersion initStoreAsync =
      .ok (VersionControlAsync.getCurrentVersion initStoreAsync) ∧
    VersionControl.getHistoryVersions ['v'] initStoreAsync =
      .ok (VersionControlAsync.getHistoryVersions ['v'] initStoreAsync) ∧
    VersionControl.getPreviousVersion ['v'] initStoreAsync =
      .ok (VersionControlAsync.getPreviousVersion ['v'] initStoreAsync) ∧
    VersionControl.getNextVersion ['v'] initStoreAsync =
      .ok (VersionControlAsync.getNextVersion ['v'] initStoreAsync) ∧
    VersionControl.saveNewVersion replaceCodec ['v'] 5 (JSON.num 1)
        initStoreAsync =
      .ok (VersionControlAsync.saveNewVersion replaceCodec ['v'] 5
        (JSON.num 1) initStoreAsync) :=
  sync_async_agree replaceCodec ['v'] 5 (JSON.num 1) initStoreAsync []
    emptyObj (by decide) rfl rfl

/-! ## Claim C4 -/

/-- C4 counterexample: minting uses the raw clock value, so two
successful saves within the same millisecond mint the same identifier.
The second save (clock 5 again, different target) succeeds — it writes
and returns the patched snapshot — but it overwrites the existing diff
record `v5.diff` instead of appending a new one: the chain holds the
single identifier `5` both before and after, so the minted identifier
is not strictly greater than every previously minted one and no record
is appended. -/
theorem identifier_collision_cex :
    VersionControl.saveNewVersion replaceCodec ['v'] 5 (JSON.num 2)
        (VersionControl.applySaves replaceCodec ['v'] [(5, JSON.num 1)]
          initStore) =
      .ok (some (JSON.num 2),
        [.wHist ['v', '5', '.', 'd', 'i', 'f', 'f']
           (.arr (.cons (.num 1) (.cons (.num 2) .nil))),
         .wHead (headObj ['5']), .wSource (.num 2)],
        { source := .jsonData (.num 2),
          headF := .jsonData (headObj ['5']),
          histDir := some [(['v', '5', '.', 'd', 'i', 'f', 'f'],
            .arr (.cons (.num 1) (.cons (.num 2) .nil)))] }) ∧
    VersionControlAsync.getHistoryVersions ['v']
      (VersionControl.applySaves replaceCodec ['v'] [(5, JSON.num 1)]
        initStore) = [['5']] ∧
    VersionControlAsync.getHistoryVersions ['v']
      (VersionControl.applySaves replaceCodec ['v']
        [(5, JSON.num 1), (5, JSON.num 2)] initStore) = [['5']] := by
  decide

/-- C4 amended: when the clock value of a successful save strictly
exceeds the numeric value of every identifier already in the chain (as
`Date.now()` does across distinct milliseconds), the save mints the
identifier equal to the clock value, appends exactly one version record
— the new chain is the old chain with the minted identifier at the end
— and the chain identifiers remain strictly increasing. -/
theorem save_appends_strictly_increasing (c : DiffCodec) (hc : c.Lawful)
    (pre : Name) (now : Nat) (s : Store) (files : List (Name × JSON))
    (t : JSON) (hdir : s.histDir = some files)
    (hstrict : (listVersions pre files).Pairwise
      (fun a b => digitsVal a < digitsVal b))
    (hfresh : ∀ v ∈ listVersions pre files, digitsVal v < now)
    (ht : t ≠ sourceObjOf s) :
    ∃ d evs s2 files2,
      c.diff (sourceObjOf s) t = some d ∧
      VersionControl.saveNewVersion c pre now t s = .ok (some t, evs, s2) ∧
      s2.histDir = some files2 ∧
      listVersions pre files2 = listVersions pre files ++ [natDigits now] ∧
      digitsVal (natDigits now) = now ∧
      (listVersions pre files2).Pairwise
        (fun a b => digitsVal a < digitsVal b) := by
  have hdne : c.diff (sourceObjOf s) t ≠ none :=
    fun h => ht ((hc.diff_eq_none _ _).mp h).symm
  obtain ⟨d, hd⟩ := Option.ne_none_iff_exists'.mp hdne
  have hfr : versionFileName pre (natDigits now) ∉ files.map Prod.fst := by
    intro hmem
    have hin : natDigits now ∈ listVersions pre files :=
      mem_listVersions.mpr (List.mem_filterMap.mpr ⟨_, hmem,
        matchDiffName_versionFileName (natDigits_ne_nil now)
          (natDigits_all_digits now)⟩)
    have hlt := hfresh _ hin
    rw [digitsVal_natDigits] at hlt
    exact Nat.lt_irrefl _ hlt
  have hfresh' : ∀ v ∈ listVersions pre files,
      digitsVal v < digitsVal (natDigits now) := by
    intro v hv
    rw [digitsVal_natDigits]
    exact hfresh v hv
  have hsnoc := listVersions_snoc_fresh (d := d) (natDigits_ne_nil now)
    (natDigits_all_digits now) hstrict hfresh'
  refine ⟨d, _, savedStore pre now t d files,
    files ++ [(versionFileName pre (natDigits now), d)], hd,
    saveNewVersion_write hc pre now hdir hd hfr, rfl, hsnoc,
    digitsVal_natDigits now, ?_⟩
  rw [hsnoc, List.pairwise_append]
  exact ⟨hstrict, List.pairwise_singleton _ _,
    fun a ha b hb => (List.mem_singleton.mp hb) ▸ hfresh' a ha⟩

/-- C4 amended witness: a second save at a strictly later clock. -/
theorem save_appends_strictly_increasing_witness :
    ∃ d evs s2 files2,
      replaceCodec.diff
        (sourceObjOf (VersionControl.applySaves replaceCodec ['v']
          [(3, JSON.num 1)] initStore)) (JSON.num 2) = some d ∧
      VersionControl.saveNewVersion replaceCodec ['v'] 7 (JSON.num 2)
        (VersionControl.applySaves replaceCodec ['v'] [(3, JSON.num 1)]
          initStore) = .ok (some (JSON.num 2), evs, s2) ∧
      s2.histDir = some files2 ∧
      listVersions ['v'] files2 =
        listVersions ['v'] [(['v', '3', '.', 'd', 'i', 'f', 'f'],
          .arr (.cons emptyObj (.cons (.num 1) .nil)))] ++ [natDigits 7] ∧
      digitsVal (natDigits 7) = 7 ∧
      (listVersions ['v'] files2).Pairwise
        (fun a b => digitsVal a < digitsVal b) :=
  save_appends_strictly_increasing replaceCodec replaceCodec_lawful ['v'] 7
    (VersionControl.applySaves replaceCodec ['v'] [(3, JSON.num 1)] initStore)
    [(['v', '3', '.', 'd', 'i', 'f', 'f'],
      .arr (.cons emptyObj (.cons (.num 1) .nil)))]
    (JSON.num 2) (by decide) (by decide) (by decide) (by decide)

/-! ## Claim C5 -/

/-- C5 evaluation: with the document snapshot file missing, the
synchronous `saveNewVersion` treats the snapshot as the empty object as
claimed — the delta it persists is `diff({}, target)` — but the
asynchronous variant reads the missing file as `null` (its own comment
notwithstanding) and persists `diff(null, target)`, a whole-document
replacement delta different from `diff({}, target)`. -/
theorem missing_snapshot_save_divergence :
    VersionControl.saveNewVersion replaceCodec ['v'] 5 (JSON.num 1)
      { source := .missing, headF := .jsonData emptyObj,
        histDir := some [] } =
      .ok (some (JSON.num 1),
        [.wHist ['v', '5', '.', 'd', 'i', 'f', 'f']
           (.arr (.cons emptyObj (.cons (.num 1) .nil))),
         .wHead (headObj ['5']), .wSource (.num 1)],
        { source := .jsonData (.num 1),
          headF := .jsonData (headObj ['5']),
          histDir := some [(['v', '5', '.', 'd', 'i', 'f', 'f'],
            .arr (.cons emptyObj (.cons (.num 1) .nil)))] }) ∧
    VersionControlAsync.saveNewVersion replaceCodec ['v'] 5 (JSON.num 1)
      { source := .missing, headF := .jsonData emptyObj,
        histDir := some [] } =
      (some (JSON.num 1),
        [.wHist ['v', '5', '.', 'd', 'i', 'f', 'f']
           (.arr (.cons .null (.cons (.num 1) .nil))),
         .wHead (headObj ['5']), .wSource (.num 1)],
        { source := .jsonData (.num 1),
          headF := .jsonData (headObj ['5']),
          histDir := some [(['v', '5', '.', 'd', 'i', 'f', 'f'],
            .arr (.cons .null (.cons (.num 1) .nil)))] }) ∧
    replaceCodec.diff emptyObj (JSON.num 1) ≠
      replaceCodec.diff JSON.null (JSON.num 1) := by
  decide

/-! ## Claim C6 -/

/-- C6 evaluation: `getCurrentVersion` does not always report none on a
missing, malformed, or freshly initialized head record.  The
asynchronous `init()` writes `{ version: null }`, after which the
asynchronous `getCurrentVersion` returns the spurious identifier
`String(null) = "null"` instead of none; and on a missing or malformed
head file the synchronous variant throws a TypeError (reading
`.version` off the `null` returned by `readJsonFile`) instead of
returning none.  Only the synchronous first-use state (head content
`{}`) yields none as the claim demands. -/
theorem head_none_handling_divergence :
    VersionControlAsync.getCurrentVersion initStoreAsync =
      some ['n', 'u', 'l', 'l'] ∧
    VersionControl.getCurrentVersion
      { source := .missing, headF := .missing, histDir := some [] } =
      .error () ∧
    VersionControl.getCurrentVersion
      { source := .missing, headF := .malformed, histDir := some [] } =
      .error () ∧
    VersionControl.getCurrentVersion initStore = .ok none := by
  decide

/-! ## Claim C7 -/

/-- C7 counterexample: when the history directory is missing, the
synchronous `getHistoryVersions` does not return the empty sequence —
`readdirSync` throws and nothing in the method catches it, so the
failure propagates. -/
theorem listing_failure_sync_throws_cex :
    VersionControl.getHistoryVersions ['v']
      { source := .missing, headF := .jsonData emptyObj,
        histDir := none } = .error () := by
  rfl

/-- C7 amended: when the directory listing succeeds, both variants
return exactly the identifiers extracted from file names matching the
prefix+digits+`.diff` pattern (non-matching names ignored), sorted in
ascending numeric order; when listing fails, the asynchronous variant
returns the empty sequence, while the synchronous variant propagates
the failure as an exception (its constructor pre-creates the
directory). -/
theorem history_versions_amended (pre : Name) :
    (∀ s : Store, s.histDir = none →
      VersionControlAsync.getHistoryVersions pre s = []) ∧
    (∀ (s : Store) (files : List (Name × JSON)), s.histDir = some files →
      ∃ L, VersionControl.getHistoryVersions pre s = .ok L ∧
        VersionControlAsync.getHistoryVersions pre s = L ∧
        L.Perm ((files.map Prod.fst).filterMap (matchDiffName pre)) ∧
        L.Sorted (fun a b => digitsVal a ≤ digitsVal b)) := by
  constructor
  · intro s h
    unfold VersionControlAsync.getHistoryVersions
    rw [h]
  · intro s files h
    refine ⟨listVersions pre files, ?_, ?_, listVersions_perm pre files,
      listVersions_sorted pre files⟩
    · unfold VersionControl.getHistoryVersions
      rw [h]
    · unfold VersionControlAsync.getHistoryVersions
      rw [h]

/-- C7 amended witness: a missing directory and a directory holding two
matching names (listed out of order) plus a junk name. -/
theorem history_versions_amended_witness :
    VersionControlAsync.getHistoryVersions ['v']
      { source := .missing, headF := .missing, histDir := none } = [] ∧
    ∃ L, VersionControl.getHistoryVersions ['v']
        { source := .missing, headF := .missing,
          histDir := some [(['v', '3', '0', '.', 'd', 'i', 'f', 'f'], .null),
            (['v', '4', '.', 'd', 'i', 'f', 'f'], .null),
            (['j', 'u', 'n', 'k'], .null)] } = .ok L ∧
      VersionControlAsync.getHistoryVersions ['v']
        { source := .missing, headF := .missing,
          histDir := some [(['v', '3', '0', '.', 'd', 'i', 'f', 'f'], .null),
            (['v', '4', '.', 'd', 'i', 'f', 'f'], .null),
            (['j', 'u', 'n', 'k'], .null)] } = L ∧
      L.Perm (([(['v', '3', '0', '.', 'd', 'i', 'f', 'f'],
          (.null : JSON)), (['v', '4', '.', 'd', 'i', 'f', 'f'], .null),
          (['j', 'u', 'n', 'k'], .null)].map Prod.fst).filterMap
        (matchDiffName ['v'])) ∧
      L.Sorted (fun a b => digitsVal a ≤ digitsVal b) :=
  ⟨(history_versions_amended ['v']).1 _ rfl,
    (history_versions_amended ['v']).2 _ _ rfl⟩

/-! ## Claim C8 -/

/-- C8 counterexample: `getPreviousVersion` and `getNextVersion` are
pure lookups that change no state — neither moves the head pointer — so
from a head at the interior identifier `2` of the chain `1, 2, 3`,
calling previous() and then next() yields `1` and then `3`: next()
returns the successor of the unchanged head, not the original
identifier. -/
theorem prev_then_next_getters_cex :
    VersionControl.getPreviousVersion ['v']
      { source := .jsonData (.num 7), headF := .jsonData (headObj ['2']),
        histDir := some [(['v', '1', '.', 'd', 'i', 'f', 'f'],
            .arr (.cons .null (.cons (.num 5) .nil))),
          (['v', '2', '.', 'd', 'i', 'f', 'f'],
            .arr (.cons .null (.cons (.num 6) .nil))),
          (['v', '3', '.', 'd', 'i', 'f', 'f'],
            .arr (.cons .null (.cons (.num 7) .nil)))] } =
      .ok (some ['1']) ∧
    VersionControl.getNextVersion ['v']
      { source := .jsonData (.num 7), headF := .jsonData (headObj ['2']),
        histDir := some [(['v', '1', '.', 'd', 'i', 'f', 'f'],
            .arr (.cons .null (.cons (.num 5) .nil))),
          (['v', '2', '.', 'd', 'i', 'f', 'f'],
            .arr (.cons .null (.cons (.num 6) .nil))),
          (['v', '3', '.', 'd', 'i', 'f', 'f'],
            .arr (.cons .null (.cons (.num 7) .nil)))] } =
      .ok (some ['3']) ∧
    VersionControl.getCurrentVersion
      { source := .jsonData (.num 7), headF := .jsonData (headObj ['2']),
        histDir := some [(['v', '1', '.', 'd', 'i', 'f', 'f'],
            .arr (.cons .null (.cons (.num 5) .nil))),
          (['v', '2', '.', 'd', 'i', 'f', 'f'],
            .arr (.cons .null (.cons (.num 6) .nil))),
          (['v', '3', '.', 'd', 'i', 'f', 'f'],
            .arr (.cons .null (.cons (.num 7) .nil)))] } =
      .ok (some ['2']) ∧
    (['3'] : Name) ≠ ['2'] := by
  decide

/-- C8 amended: from an interior head, `applyPreviousVersion` (which
does move the head) followed by `next()` returns the original
identifier: after a successful applyPrevious the head names the
predecessor, whose successor in the chain is the original head. -/
theorem apply_previous_then_next (c : DiffCodec) (pre : Name) (s : Store)
    (files : List (Name × JSON)) (ver p : Name) (w : JSON)
    (hdir : s.histDir = some files)
    (hnodup : (files.map Prod.fst).Nodup)
    (hcur : VersionControl.getCurrentVersion s = .ok (some ver))
    (hmem : ver ∈ listVersions pre files)
    (hi0 : 0 < (listVersions pre files).indexOf ver)
    (hilast : (listVersions pre files).indexOf ver <
      (listVersions pre files).length - 1)
    (hp : (listVersions pre files)[(listVersions pre files).indexOf ver - 1]? =
      some p)
    (hw : VersionControl.getSourceFromVersion c pre s p = .ok (some w))
    (hwt : jsFalsy w = false) :
    VersionControl.applyPreviousVersion c pre s =
      .ok (some w, [.wSource w, .wHead (headObj p)],
        { s with source := .jsonData w,
                 headF := .jsonData (headObj p) }) ∧
    VersionControl.getNextVersion pre
      { s with source := .jsonData w, headF := .jsonData (headObj p) } =
      .ok (some ver) := by
  have hne : ver ≠ [] := (mem_listVersions_props hmem).1
  have hpmem : p ∈ listVersions pre files := List.getElem?_mem hp
  have hpne : p ≠ [] := (mem_listVersions_props hpmem).1
  have hchnd : (listVersions pre files).Nodup := listVersions_nodup hnodup
  have hpidx : (listVersions pre files).indexOf p =
      (listVersions pre files).indexOf ver - 1 :=
    indexOf_of_getElem? hchnd hp
  have hprev : VersionControl.getPreviousVersion pre s = .ok (some p) := by
    unfold VersionControl.getPreviousVersion
    rw [hcur]
    unfold VersionControl.getHistoryVersions
    rw [hdir]
    show Except.ok (navPrev (some ver) (listVersions pre files)) =
      .ok (some p)
    unfold navPrev
    dsimp only
    rw [if_pos ⟨hne, hmem⟩, if_pos hi0, hp]
  have happly : VersionControl.applyVersionToSource c pre s p =
      .ok (some w, [.wSource w, .wHead (headObj p)],
        { s with source := .jsonData w,
                 headF := .jsonData (headObj p) }) := by
    unfold VersionControl.applyVersionToSource
    rw [hw]
    dsimp only [Option.getD]
    rw [if_neg (by simp [hwt])]
    simp [applyEvent]
  constructor
  · unfold VersionControl.applyPreviousVersion
    rw [hprev]
    dsimp only
    rw [if_neg hpne]
    exact happly
  · have hc2 : VersionControl.getCurrentVersion
        { s with source := .jsonData w,
                 headF := .jsonData (headObj p) } = .ok (some p) :=
      getCurrentVersion_headObj rfl
    have hh2 : VersionControl.getHistoryVersions pre
        { s with source := .jsonData w,
                 headF := .jsonData (headObj p) } =
        .ok (listVersions pre files) := by
      unfold VersionControl.getHistoryVersions
      dsimp only
      rw [hdir]
    unfold VersionControl.getNextVersion
    rw [hc2, hh2]
    show Except.ok (navNext (some p) (listVersions pre files)) =
      .ok (some ver)
    unfold navNext
    dsimp only
    rw [if_pos ⟨hpne, hpmem⟩, hpidx,
      if_pos (show (listVersions pre files).indexOf ver - 1 <
        (listVersions pre files).length - 1 by omega)]
    rw [show (listVersions pre files).indexOf ver - 1 + 1 =
      (listVersions pre files).indexOf ver by omega]
    rw [getElem?_indexOf_self hmem]

/-- C8 amended witness: the three-version chain with head at `2`. -/
theorem apply_previous_then_next_witness :
    VersionControl.applyPreviousVersion replaceCodec ['v']
      { source := .jsonData (.num 7), headF := .jsonData (headObj ['2']),
        histDir := some [(['v', '1', '.', 'd', 'i', 'f', 'f'],
            .arr (.cons .null (.cons (.num 5) .nil))),
          (['v', '2', '.', 'd', 'i', 'f', 'f'],
            .arr (.cons .null (.cons (.num 6) .nil))),
          (['v', '3', '.', 'd', 'i', 'f', 'f'],
            .arr (.cons .null (.cons (.num 7) .nil)))] } =
      .ok (some (.num 5), [.wSource (.num 5), .wHead (headObj ['1'])],
        { source := .jsonData (.num 5), headF := .jsonData (headObj ['1']),
          histDir := some [(['v', '1', '.', 'd', 'i', 'f', 'f'],
              .arr (.cons .null (.cons (.num 5) .nil))),
            (['v', '2', '.', 'd', 'i', 'f', 'f'],
              .arr (.cons .null (.cons (.num 6) .nil))),
            (['v', '3', '.', 'd', 'i', 'f', 'f'],
              .arr (.cons .null (.cons (.num 7) .nil)))] }) ∧
    VersionControl.getNextVersion ['v']
      { source := .jsonData (.num 5), headF := .jsonData (headObj ['1']),
        histDir := some [(['v', '1', '.', 'd', 'i', 'f', 'f'],
            .arr (.cons .null (.cons (.num 5) .nil))),
          (['v', '2', '.', 'd', 'i', 'f', 'f'],
            .arr (.cons .null (.cons (.num 6) .nil))),
          (['v', '3', '.', 'd', 'i', 'f', 'f'],
            .arr (.cons .null (.cons (.num 7) .nil)))] } =
      .ok (some ['2']) :=
  apply_previous_then_next replaceCodec ['v'] _ _ ['2'] ['1'] (.num 5)
    rfl (by decide) (by decide) (by decide) (by decide) (by decide)
    (by decide) (by decide) (by decide)

/-! ## Claim C9 -/

theorem mem_map_fst_upsert (name : Name) (v : JSON)
    (files : List (Name × JSON)) :
    name ∈ (upsert name v files).map Prod.fst := by
  induction files with
  | nil =>
      show name ∈ [(name, v)].map Prod.fst
      rw [List.map_cons]
      exact List.mem_cons_self _ _
  | cons hd tl ih =>
      obtain ⟨n, w⟩ := hd
      unfold upsert
      by_cases hn : n = name
      · rw [if_pos hn, List.map_cons]
        dsimp only
        rw [hn]
        exact List.mem_cons_self _ _
      · rw [if_neg hn, List.map_cons]
        exact List.mem_cons_of_mem _ ih

theorem getSourceFromVersion_some {c : DiffCodec} {pre : Name} {s : Store}
    {ver : Name} {w : JSON}
    (h : VersionControl.getSourceFromVersion c pre s ver = .ok (some w)) :
    ∃ files, s.histDir = some files ∧ ver ∈ listVersions pre files := by
  unfold VersionControl.getSourceFromVersion at h
  cases hcv : VersionControl.getCurrentVersion s with
  | error e =>
      rw [hcv] at h
      exact absurd h (by simp)
  | ok cur =>
      rw [hcv] at h
      cases hdir : s.histDir with
      | none =>
          rw [hdir] at h
          exact absurd h (by simp)
      | some files =>
          rw [hdir] at h
          dsimp only at h
          refine ⟨files, rfl, ?_⟩
          by_cases hcond : truthyVer cur = true ∧ ver ∈ listVersions pre files
          · exact hcond.2
          · rw [if_neg hcond] at h
            exact absurd h (by simp)

/-- Invariant of the spec: whenever the head pointer names a version,
that version's identifier is present in the history chain.  Head and
chain are read through the non-throwing accessors. -/
def HeadInChain (pre : Name) (s : Store) : Prop :=
  ∀ v, VersionControlAsync.getCurrentVersion s = some v →
    v ∈ VersionControlAsync.getHistoryVersions pre s

/-- C9: the head-in-chain invariant is preserved by every mutating
operation: `saveNewVersion` writes the new version record before
advancing the head, so afterwards the head names an identifier present
in the chain; `applyVersionToSource` only sets the head to an
identifier it has already verified to be present in the chain, and
leaves the store untouched on the not-found path. -/
theorem head_in_chain_preserved (c : DiffCodec) (pre : Name) (s : Store)
    (hinv : HeadInChain pre s) :
    (∀ now t r evs s2,
      VersionControl.saveNewVersion c pre now t s = .ok (r, evs, s2) →
      HeadInChain pre s2) ∧
    (∀ ver r evs s2,
      VersionControl.applyVersionToSource c pre s ver = .ok (r, evs, s2) →
      HeadInChain pre s2) := by
  constructor
  · intro now t r evs s2 hsv
    unfold VersionControl.saveNewVersion at hsv
    cases hd : c.diff (sourceObjOf s) t with
    | none =>
        simp only [hd] at hsv
        simp only [Except.ok.injEq, Prod.mk.injEq] at hsv
        rw [← hsv.2.2]
        exact hinv
    | some d =>
        simp only [hd] at hsv
        by_cases hf : jsFalsy d = true
        · rw [if_pos hf] at hsv
          simp only [Except.ok.injEq, Prod.mk.injEq] at hsv
          rw [← hsv.2.2]
          exact hinv
        · rw [if_neg hf] at hsv
          cases hdir : s.histDir with
          | none =>
              rw [hdir] at hsv
              exact absurd hsv (by simp)
          | some files =>
              rw [hdir] at hsv
              dsimp only at hsv
              simp only [Except.ok.injEq, Prod.mk.injEq] at hsv
              obtain ⟨-, -, h3⟩ := hsv
              rw [← h3]
              have hstore : List.foldl applyEvent s
                  [WriteEvent.wHist (versionFileName pre (natDigits now)) d,
                   WriteEvent.wHead (headObj (natDigits now)),
                   WriteEvent.wSource (c.patch (sourceObjOf s) d)] =
                  { source := .jsonData (c.patch (sourceObjOf s) d),
                    headF := .jsonData (headObj (natDigits now)),
                    histDir := some (upsert
                      (versionFileName pre (natDigits now)) d files) } := by
                simp [applyEvent, hdir]
              rw [hstore]
              intro v hv
              rw [asyncGetCurrentVersion_headObj rfl] at hv
              injection hv with hv
              rw [← hv]
              unfold VersionControlAsync.getHistoryVersions
              dsimp only
              exact mem_listVersions.mpr (List.mem_filterMap.mpr
                ⟨_, mem_map_fst_upsert _ _ _,
                  matchDiffName_versionFileName (natDigits_ne_nil now)
                    (natDigits_all_digits now)⟩)
  · intro ver r evs s2 hap
    unfold VersionControl.applyVersionToSource at hap
    cases hres : VersionControl.getSourceFromVersion c pre s ver with
    | error e =>
        rw [hres] at hap
        exact absurd hap (by simp)
    | ok rr =>
        rw [hres] at hap
        dsimp only at hap
        by_cases hf : jsFalsy (rr.getD .null) = true
        · rw [if_pos hf] at hap
          simp only [Except.ok.injEq, Prod.mk.injEq] at hap
          rw [← hap.2.2]
          exact hinv
        · rw [if_neg hf] at hap
          simp only [Except.ok.injEq, Prod.mk.injEq] at hap
          obtain ⟨-, -, h3⟩ := hap
          rw [← h3]
          cases rr with
          | none =>
              exact absurd (show jsFalsy (Option.getD none JSON.null) = true
                from rfl) hf
          | some w =>
              obtain ⟨files, hdir, hmem⟩ := getSourceFromVersion_some hres
              have hstore : List.foldl applyEvent s
                  [WriteEvent.wSource ((some w).getD .null),
                   WriteEvent.wHead (headObj ver)] =
                  { s with source := .jsonData w,
                           headF := .jsonData (headObj ver) } := by
                simp [applyEvent]
              rw [hstore]
              intro v hv
              rw [asyncGetCurrentVersion_headObj rfl] at hv
              injection hv with hv
              rw [← hv]
              unfold VersionControlAsync.getHistoryVersions
              dsimp only
              rw [hdir]
              exact hmem

/-- C9 witness: the invariant propagated through a concrete save and a
concrete apply on the freshly constructed store. -/
theorem head_in_chain_preserved_witness :
    (∀ now t r evs s2,
      VersionControl.saveNewVersion replaceCodec ['v'] now t initStore =
        .ok (r, evs, s2) → HeadInChain ['v'] s2) ∧
    (∀ ver r evs s2,
      VersionControl.applyVersionToSource replaceCodec ['v'] initStore ver =
        .ok (r, evs, s2) → HeadInChain ['v'] s2) :=
  head_in_chain_preserved replaceCodec ['v'] initStore
    (by
      intro v hv
      rw [show VersionControlAsync.getCurrentVersion initStore = none
        from rfl] at hv
      cases hv)

/-! ## Claim C10 -/

/-- C10: when the value reconstructed for a version present in the
history chain is falsy JSON (`null`, `false`, `0` or the empty string),
`applyVersionToSource` reports NotFound — it returns the `null`
sentinel, writes nothing, and leaves the snapshot and head untouched —
because the `!sourceObj` check cannot distinguish the `null` not-found
sentinel of `getSourceFromVersion` from a falsy reconstructed document;
the wrappers such as `applyLatestVersion` therefore report NotFound for
such versions as well. -/
theorem falsy_reconstruction_not_found (c : DiffCodec) (pre : Name)
    (s : Store) (ver : Name) (w : JSON)
    (hrec : VersionControl.getSourceFromVersion c pre s ver = .ok (some w))
    (hfalsy : jsFalsy w = true) :
    VersionControl.applyVersionToSource c pre s ver = .ok (none, [], s) ∧
    (∃ files, s.histDir = some files ∧ ver ∈ listVersions pre files) ∧
    (∀ files, s.histDir = some files →
      (listVersions pre files).getLast? = some ver →
      VersionControl.applyLatestVersion c pre s = .ok (none, [], s)) := by
  have happ : VersionControl.applyVersionToSource c pre s ver =
      .ok (none, [], s) := by
    unfold VersionControl.applyVersionToSource
    rw [hrec]
    dsimp only
    rw [if_pos (show jsFalsy ((some w).getD .null) = true from hfalsy)]
  refine ⟨happ, getSourceFromVersion_some hrec, ?_⟩
  intro files hdir hlast
  unfold VersionControl.applyLatestVersion
  unfold VersionControl.getHistoryVersions
  rw [hdir]
  dsimp only
  rw [hlast]
  exact happ

/-- Store exhibiting a falsy reconstructed document: its one-entry
chain replays the snapshot to `false`. -/
def falsyChainStore : Store :=
  { source := .jsonData (.num 3), headF := .jsonData (headObj ['5']),
    histDir := some [(['v', '5', '.', 'd', 'i', 'f', 'f'],
      .arr (.cons .null (.cons (.bool false) .nil)))] }

/-- C10 witness: applying the version that reconstructs to the falsy
document `false` is reported as NotFound and changes nothing. -/
theorem falsy_reconstruction_not_found_witness :
    VersionControl.applyVersionToSource replaceCodec ['v'] falsyChainStore
      ['5'] = .ok (none, [], falsyChainStore) ∧
    (∃ files, falsyChainStore.histDir = some files ∧
      (['5'] : Name) ∈ listVersions ['v'] files) ∧
    (∀ files, falsyChainStore.histDir = some files →
      (listVersions ['v'] files).getLast? = some ['5'] →
      VersionControl.applyLatestVersion replaceCodec ['v'] falsyChainStore =
        .ok (none, [], falsyChainStore)) :=
  falsy_reconstruction_not_found replaceCodec ['v'] falsyChainStore ['5']
    (.bool false) (by decide) (by decide)
